import Mathlib

/-!
Verification of the generic negamax search engine of `src/Nim.cpp`
(a tic-tac-toe program).  The engine (`FindBestMove`, `EvaluatePosition`,
the rating constants and `MAX_DEPTH`) is translated from the source; the
game adapter (move generation, apply/retract, terminality, static
evaluation), whose definitions are not part of the source file, is
modelled from the specification.
-/

namespace TicTacToe

/-- Rating landmark from the source: `const int WINNING_POSITION = 1000`. -/
def WINNING_POSITION : Int := 1000

/-- Rating landmark from the source: `const int NEUTRAL_POSITION = 0`. -/
def NEUTRAL_POSITION : Int := 0

/-- Rating landmark from the source: `const int LOSING_POSITION = -WINNING_POSITION`. -/
def LOSING_POSITION : Int := -WINNING_POSITION

/-- Depth cap from the source: `const int MAX_DEPTH = 10000`. -/
def MAX_DEPTH : Nat := 10000

/-- The two players, from the source `enum playerT`. -/
inductive playerT where
  | Human : playerT
  | Computer : playerT
deriving DecidableEq

/-- A move is an integer naming one of the nine squares (source `typedef int moveT`). -/
abbrev moveT := Int

/-- Game state, from the source `struct stateT`: a 3x3 board stored in
row-major order (a cell holds the mark of the player who filled it, or
nothing), the player whose turn it is, and the number of turns taken. -/
structure stateT where
  board : List (Option playerT)
  whoseTurn : playerT
  turnsTaken : Int
deriving DecidableEq

/-- First player, from the source: `const playerT FIRST_PLAYER = Computer`. -/
def FIRST_PLAYER : playerT := playerT.Computer

/-- Modelled from the spec: `opponent(p)` toggles the two-valued player tag. -/
def Opponent : playerT → playerT
  | playerT.Human => playerT.Computer
  | playerT.Computer => playerT.Human

/-- Modelled from the spec: the eight lines of the board (three rows,
three columns, two diagonals), as row-major cell indices. -/
def allLines : List (List Nat) :=
  [[0,1,2],[3,4,5],[6,7,8],[0,3,6],[1,4,7],[2,5,8],[0,4,8],[2,4,6]]

/-- Modelled from the spec: win detection scans all eight lines looking
for three identical non-empty marks of the given player. -/
def CheckForWin (s : stateT) (p : playerT) : Bool :=
  allLines.any (fun line => line.all (fun i => decide (s.board.getD i none = some p)))

/-- Modelled from the spec: terminality (`GameIsOver`) holds iff either
player has three-in-a-row or the ply counter equals the board capacity 9. -/
def GameIsOver (s : stateT) : Bool :=
  CheckForWin s playerT.Human || CheckForWin s playerT.Computer ||
    decide (s.turnsTaken = 9)

/-- Modelled from the spec: static evaluation from the side-to-move's
perspective; side to move has a line: WIN, opponent has a line: LOSS,
otherwise NEUTRAL. -/
def EvaluateStaticPosition (s : stateT) : Int :=
  if CheckForWin s s.whoseTurn then WINNING_POSITION
  else if CheckForWin s (Opponent s.whoseTurn) then LOSING_POSITION
  else NEUTRAL_POSITION

/-- Modelled from the spec: a move is legal iff it names a square 1..9
and the addressed cell is empty. -/
def MoveIsLegal (m : moveT) (s : stateT) : Bool :=
  decide (1 ≤ m) && decide (m ≤ 9) &&
    decide (s.board.getD (m - 1).toNat none = none)

/-- Modelled from the spec: move generation enumerates squares 1..9 in
ascending order, filtered to the legal (empty) ones. -/
def GenerateMoveList (s : stateT) : List moveT :=
  ((List.range 9).map (fun i : Nat => (i : Int) + 1)).filter (fun m => MoveIsLegal m s)

/-- Modelled from the spec: `apply` places the current player's mark in
the addressed cell, increments the ply counter and toggles the turn. -/
def MakeMove (s : stateT) (m : moveT) : stateT :=
  { board := s.board.set (m - 1).toNat (some s.whoseTurn),
    whoseTurn := Opponent s.whoseTurn,
    turnsTaken := s.turnsTaken + 1 }

/-- Modelled from the spec: `retract` clears the cell, decrements the
ply counter and toggles the turn back. -/
def RetractMove (s : stateT) (m : moveT) : stateT :=
  { board := s.board.set (m - 1).toNat none,
    whoseTurn := Opponent s.whoseTurn,
    turnsTaken := s.turnsTaken - 1 }

/-- One iteration of the move loop of the source `FindBestMove`
(lines 178-187).  The loop guard `minRating != LOSING_POSITION` becomes
a skip once the accumulator has reached `LOSING_POSITION`; otherwise the
iteration applies the move, evaluates the resulting position with the
supplied evaluator, records the move when its rating improves on the
running minimum, and retracts the move. -/
def fbmStep (eval : stateT → Int) (acc : stateT × Option moveT × Int)
    (m : moveT) : stateT × Option moveT × Int :=
  if acc.2.2 = LOSING_POSITION then acc
  else
    let s1 := MakeMove acc.1 m
    let cur := eval s1
    let s2 := RetractMove s1 m
    if cur < acc.2.2 then (s2, some m, cur) else (s2, acc.2.1, acc.2.2)

/-- The move loop of the source `FindBestMove`: fold `fbmStep` over the
generated move list, starting from the unassigned best move and the
sentinel `WINNING_POSITION + 1`.  The first component threads the
position mutated by apply/retract, exactly as the source mutates its
local `state`. -/
def fbmAux (eval : stateT → Int) (s : stateT) : stateT × Option moveT × Int :=
  (GenerateMoveList s).foldl (fbmStep eval) (s, none, WINNING_POSITION + 1)

/-- The recursion of the source engine, indexed by the fuel
`MAX_DEPTH + 1 - depth` that the `depth >= MAX_DEPTH` cutoff guarantees:
terminal or cut-off positions get the static evaluation, any other
position gets the negated minimum computed by the move loop with the
children evaluated at one unit less fuel. -/
def evalFuel : Nat → stateT → Nat → Int
  | 0, s, _ => EvaluateStaticPosition s
  | fuel+1, s, d =>
    if GameIsOver s || decide (MAX_DEPTH ≤ d) then EvaluateStaticPosition s
    else -(fbmAux (fun s1 => evalFuel fuel s1 (d+1)) s).2.2

/-- Source `EvaluatePosition` (lines 200-207): static evaluation at a
terminal or depth-capped position, otherwise the rating of the best
move.  Defined through `evalFuel` at the fuel the depth cap warrants. -/
def EvaluatePosition (s : stateT) (d : Nat) : Int :=
  evalFuel (MAX_DEPTH + 1 - d) s d

/-- Source `FindBestMove` (lines 171-190): run the move loop with the
children evaluated by `EvaluatePosition` at depth + 1, return the
recorded best move together with `rating = -minRating`. -/
def FindBestMove (s : stateT) (d : Nat) : Option moveT × Int :=
  let r := fbmAux (fun s1 => EvaluatePosition s1 (d+1)) s
  (r.2.1, -r.2.2)

/-- Modelled from the spec: `NewGame` starts from the empty board with
`FIRST_PLAYER` to move and no turns taken. -/
def NewGame : stateT :=
  { board := List.replicate 9 none, whoseTurn := FIRST_PLAYER, turnsTaken := 0 }

/-- A position satisfying the data-model invariants of the spec: a 3x3
board and a ply counter equal to the number of occupied cells. -/
def ValidState (s : stateT) : Prop :=
  s.board.length = 9 ∧
    s.turnsTaken = ((s.board.countP (fun c => c.isSome) : Nat) : Int)

instance (s : stateT) : Decidable (ValidState s) := by
  unfold ValidState; infer_instance

/-- Number of empty cells of a position. -/
def emptyCells (s : stateT) : Nat :=
  s.board.countP (fun c => c.isNone)

/-- The move loop of `FindBestMove` with the state threading removed:
since apply followed by retract restores the position, every iteration
of the source loop starts from the same position `s`.  This function is
the loop's effect on the best-move/minimum-rating pair. -/
def loopSimple (eval : stateT → Int) (s : stateT) :
    List moveT → Option moveT → Int → Option moveT × Int
  | [], best, minR => (best, minR)
  | m :: rest, best, minR =>
    if minR = LOSING_POSITION then (best, minR)
    else if eval (MakeMove s m) < minR then
      loopSimple eval s rest (some m) (eval (MakeMove s m))
    else loopSimple eval s rest best minR

/-- Modelled from the spec: the exhaustive form of the move loop, which
scans the full move list with no early exit, keeping the first move
whose child rating is strictly below the running minimum. -/
def loopExhaustive (eval : stateT → Int) (s : stateT) :
    List moveT → Option moveT → Int → Option moveT × Int
  | [], best, minR => (best, minR)
  | m :: rest, best, minR =>
    if eval (MakeMove s m) < minR then
      loopExhaustive eval s rest (some m) (eval (MakeMove s m))
    else loopExhaustive eval s rest best minR

/-- Modelled from the spec: the exhaustive search over the full move
list, with the sentinel `WIN + 1` and the final negation, but without
the early exit at `LOSS`. -/
def FindBestMoveExhaustive (s : stateT) (d : Nat) : Option moveT × Int :=
  let r := loopExhaustive (fun s1 => EvaluatePosition s1 (d+1)) s
    (GenerateMoveList s) none (WINNING_POSITION + 1)
  (r.1, -r.2)

/-- Bitmask of the cells of a board holding the mark of player `p`:
bit `i` is set iff cell `i` holds `some p`. -/
def maskOf (p : playerT) : List (Option playerT) → Nat
  | [] => 0
  | c :: rest => (if c = some p then 1 else 0) + 2 * maskOf p rest

/-- Three-in-a-row test on a bitmask, mirroring `CheckForWin`. -/
def bwin (m : Nat) : Bool :=
  allLines.any (fun line => line.all (fun i => m.testBit i))

/-- A fast draw-certifying search on bitmasks, used to settle the value
of the full game tree.  `bcheck ge fuel x o t` takes the mask `x` of the
side to move, the mask `o` of the opponent and the number `t` of turns
taken.  With `ge = true` it checks that the side to move can force a
rating of at least `NEUTRAL_POSITION` (picking moves in a centre-first
order); with `ge = false` it checks that every move of the side to move
leaves the opponent able to force at least `NEUTRAL_POSITION`, so the
side to move cannot exceed `NEUTRAL_POSITION`. -/
def bcheck : Bool → Nat → Nat → Nat → Nat → Bool
  | ge, 0, x, o, _ => if ge then bwin x || !bwin o else !bwin x
  | ge, fuel+1, x, o, t =>
    if bwin x || bwin o || t == 9 then (if ge then bwin x || !bwin o else !bwin x)
    else if ge then
      ([4,0,2,6,8,1,3,5,7].filter (fun i => !(x ||| o).testBit i)).any
        (fun i => bcheck false fuel o (x ||| 2 ^ i) (t+1))
    else
      ((List.range 9).filter (fun i => !(x ||| o).testBit i)).all
        (fun i => bcheck true fuel o (x ||| 2 ^ i) (t+1))

/-- A concrete mid-game position used as a witness input: eight cells
filled, no line completed, one legal move left. -/
def sampleState : stateT :=
  { board := [some playerT.Computer, some playerT.Human, some playerT.Computer,
              some playerT.Computer, some playerT.Human, some playerT.Human,
              some playerT.Human, some playerT.Computer, none],
    whoseTurn := playerT.Computer, turnsTaken := 8 }

/-- A concrete drawn full board used as a witness input: nine cells
filled, no line completed, no legal move. -/
def fullState : stateT :=
  { board := [some playerT.Computer, some playerT.Human, some playerT.Computer,
              some playerT.Computer, some playerT.Human, some playerT.Human,
              some playerT.Human, some playerT.Computer, some playerT.Computer],
    whoseTurn := playerT.Human, turnsTaken := 9 }

lemma Opponent_Opponent (p : playerT) : Opponent (Opponent p) = p := by
  cases p <;> rfl

lemma Opponent_ne (p : playerT) : Opponent p ≠ p := by
  cases p <;> simp [Opponent]

lemma getD_set_self {α : Type} (l : List α) (i : Nat) (v d : α)
    (h : i < l.length) : (l.set i v).getD i d = v := by
  induction l generalizing i with
  | nil => simp at h
  | cons c rest ih =>
    cases i with
    | zero => rfl
    | succ j => exact ih j (by simpa using h)

lemma getD_set_ne {α : Type} (l : List α) (i j : Nat) (v d : α)
    (h : i ≠ j) : (l.set i v).getD j d = l.getD j d := by
  induction l generalizing i j with
  | nil => rfl
  | cons c rest ih =>
    cases i with
    | zero => cases j with
      | zero => exact absurd rfl h
      | succ j' => rfl
    | succ i' => cases j with
      | zero => rfl
      | succ j' => exact ih i' j' (by omega)

lemma set_getD_same {α : Type} (l : List α) (i : Nat) (d : α)
    (h : l.getD i d = d) : l.set i d = l := by
  induction l generalizing i with
  | nil => rfl
  | cons c rest ih =>
    cases i with
    | zero => simpa using congrArg (fun x => x :: rest) h.symm
    | succ j => simpa using ih j h

lemma retract_make (s : stateT) (m : moveT)
    (h : s.board.getD (m - 1).toNat none = none) :
    RetractMove (MakeMove s m) m = s := by
  cases s with
  | mk b w t =>
    simp only [RetractMove, MakeMove, stateT.mk.injEq]
    refine ⟨?_, ?_, ?_⟩
    · rw [List.set_set]; exact set_getD_same b _ none h
    · exact Opponent_Opponent w
    · omega

lemma legal_of_mem_moves {s : stateT} {m : moveT}
    (h : m ∈ GenerateMoveList s) : MoveIsLegal m s = true :=
  (List.mem_filter.mp h).2

lemma cell_of_legal {s : stateT} {m : moveT}
    (h : MoveIsLegal m s = true) :
    1 ≤ m ∧ m ≤ 9 ∧ s.board.getD (m - 1).toNat none = none := by
  simp only [MoveIsLegal, Bool.and_eq_true, decide_eq_true_eq] at h
  exact ⟨h.1.1, h.1.2, h.2⟩

lemma mem_moves_iff {s : stateT} {m : moveT} :
    m ∈ GenerateMoveList s ↔
      ∃ i : Nat, i < 9 ∧ m = (i : Int) + 1 ∧ s.board.getD i none = none := by
  constructor
  · intro h
    rcases List.mem_filter.mp h with ⟨hmem, hleg⟩
    rcases List.mem_map.mp hmem with ⟨i, hi, rfl⟩
    rcases cell_of_legal hleg with ⟨-, -, hcell⟩
    refine ⟨i, List.mem_range.mp hi, rfl, ?_⟩
    have : ((i : Int) + 1 - 1).toNat = i := by omega
    rwa [this] at hcell
  · rintro ⟨i, hi9, rfl, hcell⟩
    refine List.mem_filter.mpr ⟨List.mem_map.mpr ⟨i, List.mem_range.mpr hi9, rfl⟩, ?_⟩
    have ht : ((i : Int) + 1 - 1).toNat = i := by omega
    simp only [MoveIsLegal, Bool.and_eq_true, decide_eq_true_eq, ht]
    refine ⟨⟨?_, ?_⟩, hcell⟩
    · show (1 : Int) ≤ (i : Int) + 1
      omega
    · show (i : Int) + 1 ≤ (9 : Int)
      omega

lemma fbmStep_fix (eval : stateT → Int) (acc : stateT × Option moveT × Int)
    (m : moveT) (h : acc.2.2 = LOSING_POSITION) : fbmStep eval acc m = acc := by
  simp [fbmStep, h]

lemma foldl_fbmStep_fix (eval : stateT → Int) (ms : List moveT) :
    ∀ acc : stateT × Option moveT × Int, acc.2.2 = LOSING_POSITION →
      ms.foldl (fbmStep eval) acc = acc := by
  induction ms with
  | nil => intro acc _; rfl
  | cons m rest ih =>
    intro acc h
    rw [List.foldl_cons, fbmStep_fix eval acc m h]
    exact ih acc h

lemma foldl_fbmStep_eq (eval : stateT → Int) (s : stateT) :
    ∀ (ms : List moveT),
      (∀ m ∈ ms, s.board.getD (m - 1).toNat none = none) →
      ∀ (best : Option moveT) (minR : Int),
        ms.foldl (fbmStep eval) (s, best, minR) =
          (s, loopSimple eval s ms best minR) := by
  intro ms
  induction ms with
  | nil => intro _ best minR; rfl
  | cons m rest ih =>
    intro h best minR
    by_cases hL : minR = LOSING_POSITION
    · rw [List.foldl_cons, fbmStep_fix eval _ m hL, foldl_fbmStep_fix eval rest _ hL]
      simp [loopSimple, hL]
    · have hs2 : RetractMove (MakeMove s m) m = s :=
        retract_make s m (h m (List.mem_cons_self m rest))
      have hrest : ∀ m' ∈ rest, s.board.getD (m' - 1).toNat none = none :=
        fun m' hm' => h m' (List.mem_cons_of_mem m hm')
      rw [List.foldl_cons]
      by_cases hlt : eval (MakeMove s m) < minR
      · have hstep : fbmStep eval (s, best, minR) m =
            (s, some m, eval (MakeMove s m)) := by
          simp [fbmStep, hL, hlt, hs2]
        rw [hstep, ih hrest (some m) (eval (MakeMove s m))]
        simp [loopSimple, hL, hlt]
      · have hstep : fbmStep eval (s, best, minR) m = (s, best, minR) := by
          simp [fbmStep, hL, hlt, hs2]
        rw [hstep, ih hrest best minR]
        simp [loopSimple, hL, hlt]

lemma cell_of_mem_moves {s : stateT} {m : moveT}
    (h : m ∈ GenerateMoveList s) : s.board.getD (m - 1).toNat none = none :=
  (cell_of_legal (legal_of_mem_moves h)).2.2

lemma fbmAux_eq (eval : stateT → Int) (s : stateT) :
    fbmAux eval s =
      (s, loopSimple eval s (GenerateMoveList s) none (WINNING_POSITION + 1)) :=
  foldl_fbmStep_eq eval s (GenerateMoveList s)
    (fun _ hm => cell_of_mem_moves hm) none (WINNING_POSITION + 1)

lemma foldlMin_le_init : ∀ (l : List Int) (a : Int), l.foldl min a ≤ a := by
  intro l
  induction l with
  | nil => intro a; simp
  | cons v t ih =>
    intro a
    calc t.foldl min (min a v) ≤ min a v := ih _
      _ ≤ a := min_le_left _ _

lemma foldlMin_le_mem : ∀ {l : List Int} {v : Int}, v ∈ l →
    ∀ a : Int, l.foldl min a ≤ v := by
  intro l
  induction l with
  | nil => intro v hv; cases hv
  | cons w t ih =>
    intro v hv a
    rcases List.mem_cons.mp hv with rfl | hv'
    · calc t.foldl min (min a v) ≤ min a v := foldlMin_le_init t _
        _ ≤ v := min_le_right _ _
    · exact ih hv' _

lemma le_foldlMin : ∀ {l : List Int} {c : Int}, (∀ v ∈ l, c ≤ v) →
    ∀ {a : Int}, c ≤ a → c ≤ l.foldl min a := by
  intro l
  induction l with
  | nil => intro c _ a ha; simpa using ha
  | cons w t ih =>
    intro c h a ha
    exact ih (fun v hv => h v (List.mem_cons_of_mem w hv))
      (le_min ha (h w (List.mem_cons_self w t)))

lemma foldlMin_fix : ∀ {l : List Int} {c : Int}, (∀ v ∈ l, c ≤ v) →
    l.foldl min c = c := by
  intro l
  induction l with
  | nil => intro c _; rfl
  | cons w t ih =>
    intro c h
    have : min c w = c := min_eq_left (h w (List.mem_cons_self w t))
    rw [List.foldl_cons, this]
    exact ih (fun v hv => h v (List.mem_cons_of_mem w hv))

lemma loopSimple_spec (eval : stateT → Int) (s : stateT) :
    ∀ (ms : List moveT) (best : Option moveT) (minR : Int),
      (∀ m ∈ ms, LOSING_POSITION ≤ eval (MakeMove s m)) →
      LOSING_POSITION ≤ minR →
      (loopSimple eval s ms best minR).2 =
          (ms.map (fun m => eval (MakeMove s m))).foldl min minR ∧
        ((loopSimple eval s ms best minR).2 = minR →
          (loopSimple eval s ms best minR).1 = best) ∧
        ((loopSimple eval s ms best minR).2 < minR →
          ∃ i, ∃ hi : i < ms.length,
            (loopSimple eval s ms best minR).1 = some (ms.get ⟨i, hi⟩) ∧
            eval (MakeMove s (ms.get ⟨i, hi⟩)) = (loopSimple eval s ms best minR).2 ∧
            ∀ j, ∀ hj : j < ms.length, j < i →
              (loopSimple eval s ms best minR).2 <
                eval (MakeMove s (ms.get ⟨j, hj⟩))) := by
  intro ms
  induction ms with
  | nil =>
    intro best minR _ _
    refine ⟨rfl, fun _ => rfl, fun hlt => absurd hlt (lt_irrefl _)⟩
  | cons m rest ih =>
    intro best minR h1 h2
    have h1rest : ∀ m' ∈ rest, LOSING_POSITION ≤ eval (MakeMove s m') :=
      fun m' hm' => h1 m' (List.mem_cons_of_mem m hm')
    have h1head : LOSING_POSITION ≤ eval (MakeMove s m) :=
      h1 m (List.mem_cons_self m rest)
    by_cases hL : minR = LOSING_POSITION
    · have hloop : loopSimple eval s (m :: rest) best minR = (best, minR) := by
        simp [loopSimple, hL]
      have hvals : ∀ v ∈ (m :: rest).map (fun m' => eval (MakeMove s m')), minR ≤ v := by
        intro v hv
        rcases List.mem_map.mp hv with ⟨m', hm', rfl⟩
        exact hL ▸ h1 m' hm'
      rw [hloop]
      refine ⟨(foldlMin_fix hvals).symm, fun _ => rfl,
        fun hlt => absurd hlt (lt_irrefl _)⟩
    · by_cases hlt : eval (MakeMove s m) < minR
      · have hloop : loopSimple eval s (m :: rest) best minR =
            loopSimple eval s rest (some m) (eval (MakeMove s m)) := by
          simp [loopSimple, hL, hlt]
        rcases ih (some m) (eval (MakeMove s m)) h1rest h1head with ⟨hc1, hc2, hc3⟩
        rw [hloop]
        have hmap : (m :: rest).map (fun m' => eval (MakeMove s m')) =
            eval (MakeMove s m) :: rest.map (fun m' => eval (MakeMove s m')) := rfl
        have hmin : min minR (eval (MakeMove s m)) = eval (MakeMove s m) :=
          min_eq_right (le_of_lt hlt)
        have hfold : ((m :: rest).map (fun m' => eval (MakeMove s m'))).foldl min minR =
            (rest.map (fun m' => eval (MakeMove s m'))).foldl min
              (eval (MakeMove s m)) := by
          rw [hmap, List.foldl_cons, hmin]
        refine ⟨by rw [hfold]; exact hc1, ?_, ?_⟩
        · intro heq
          exfalso
          have : (loopSimple eval s rest (some m) (eval (MakeMove s m))).2 ≤
              eval (MakeMove s m) := by
            rw [hc1]; exact foldlMin_le_init _ _
          omega
        · intro _
          have hle : (loopSimple eval s rest (some m) (eval (MakeMove s m))).2 ≤
              eval (MakeMove s m) := by
            rw [hc1]; exact foldlMin_le_init _ _
          rcases eq_or_lt_of_le hle with heq | hlt2
          · refine ⟨0, by simp, ?_, ?_, ?_⟩
            · exact hc2 heq
            · exact heq.symm
            · intro j hj hj0; omega
          · rcases hc3 hlt2 with ⟨i', hi', hb, hv, hearlier⟩
            refine ⟨i' + 1, by simpa using Nat.succ_lt_succ hi', ?_, ?_, ?_⟩
            · simpa using hb
            · simpa using hv
            · intro j hj hjlt
              cases j with
              | zero =>
                show (loopSimple eval s rest (some m) (eval (MakeMove s m))).2 <
                  eval (MakeMove s m)
                exact hlt2
              | succ j' =>
                have hj' : j' < rest.length := by simpa using hj
                have := hearlier j' hj' (by omega)
                simpa using this
      · have hloop : loopSimple eval s (m :: rest) best minR =
            loopSimple eval s rest best minR := by
          simp [loopSimple, hL, hlt]
        rcases ih best minR h1rest h2 with ⟨hc1, hc2, hc3⟩
        rw [hloop]
        have hge : minR ≤ eval (MakeMove s m) := le_of_not_lt hlt
        have hmin : min minR (eval (MakeMove s m)) = minR := min_eq_left hge
        have hfold : ((m :: rest).map (fun m' => eval (MakeMove s m'))).foldl min minR =
            (rest.map (fun m' => eval (MakeMove s m'))).foldl min minR := by
          rw [show (m :: rest).map (fun m' => eval (MakeMove s m')) =
            eval (MakeMove s m) :: rest.map (fun m' => eval (MakeMove s m')) from rfl,
            List.foldl_cons, hmin]
        refine ⟨by rw [hfold]; exact hc1, hc2, ?_⟩
        intro hlt2
        rcases hc3 hlt2 with ⟨i', hi', hb, hv, hearlier⟩
        refine ⟨i' + 1, by simpa using Nat.succ_lt_succ hi', ?_, ?_, ?_⟩
        · simpa using hb
        · simpa using hv
        · intro j hj hjlt
          cases j with
          | zero =>
            show (loopSimple eval s rest best minR).2 < eval (MakeMove s m)
            omega
          | succ j' =>
            have hj' : j' < rest.length := by simpa using hj
            have := hearlier j' hj' (by omega)
            simpa using this

lemma loopSimple_congr (eval1 eval2 : stateT → Int) (s : stateT) :
    ∀ (ms : List moveT),
      (∀ m ∈ ms, eval1 (MakeMove s m) = eval2 (MakeMove s m)) →
      ∀ (best : Option moveT) (minR : Int),
        loopSimple eval1 s ms best minR = loopSimple eval2 s ms best minR := by
  intro ms
  induction ms with
  | nil => intro _ best minR; rfl
  | cons m rest ih =>
    intro h best minR
    have hhead := h m (List.mem_cons_self m rest)
    have hrest := fun m' hm' => h m' (List.mem_cons_of_mem m hm')
    simp only [loopSimple, hhead]
    by_cases hL : minR = LOSING_POSITION
    · simp [hL]
    · simp only [if_neg hL]
      by_cases hlt : eval2 (MakeMove s m) < minR
      · simp only [if_pos hlt]; exact ih hrest _ _
      · simp only [if_neg hlt]; exact ih hrest _ _

lemma loopExhaustive_fix (eval : stateT → Int) (s : stateT) :
    ∀ (ms : List moveT) (best : Option moveT) (minR : Int),
      (∀ m ∈ ms, minR ≤ eval (MakeMove s m)) →
      loopExhaustive eval s ms best minR = (best, minR) := by
  intro ms
  induction ms with
  | nil => intro best minR _; rfl
  | cons m rest ih =>
    intro best minR h
    have : ¬ eval (MakeMove s m) < minR :=
      not_lt.mpr (h m (List.mem_cons_self m rest))
    simp only [loopExhaustive, if_neg this]
    exact ih best minR (fun m' hm' => h m' (List.mem_cons_of_mem m hm'))

lemma loopSimple_eq_exhaustive (eval : stateT → Int) (s : stateT) :
    ∀ (ms : List moveT) (best : Option moveT) (minR : Int),
      (∀ m ∈ ms, LOSING_POSITION ≤ eval (MakeMove s m)) →
      LOSING_POSITION ≤ minR →
      loopSimple eval s ms best minR = loopExhaustive eval s ms best minR := by
  intro ms
  induction ms with
  | nil => intro best minR _ _; rfl
  | cons m rest ih =>
    intro best minR h1 h2
    have h1rest : ∀ m' ∈ rest, LOSING_POSITION ≤ eval (MakeMove s m') :=
      fun m' hm' => h1 m' (List.mem_cons_of_mem m hm')
    by_cases hL : minR = LOSING_POSITION
    · subst hL
      have hfix : loopExhaustive eval s (m :: rest) best LOSING_POSITION =
          (best, LOSING_POSITION) :=
        loopExhaustive_fix eval s (m :: rest) best LOSING_POSITION h1
      rw [hfix]
      simp [loopSimple]
    · by_cases hlt : eval (MakeMove s m) < minR
      · simp only [loopSimple, loopExhaustive, if_neg hL, if_pos hlt]
        exact ih _ _ h1rest (h1 m (List.mem_cons_self m rest))
      · simp only [loopSimple, loopExhaustive, if_neg hL, if_neg hlt]
        exact ih _ _ h1rest h2

lemma getD_eq_get {α : Type} (l : List α) (i : Nat) (d : α) (h : i < l.length) :
    l.getD i d = l.get ⟨i, h⟩ := by
  induction l generalizing i with
  | nil => simp at h
  | cons c rest ih =>
    cases i with
    | zero => rfl
    | succ j => exact ih j (by simpa using h)

lemma countP_set_some_isSome (b : List (Option playerT)) :
    ∀ (i : Nat) (p : playerT), i < b.length → b.getD i none = none →
      (b.set i (some p)).countP (fun c => c.isSome) =
        b.countP (fun c => c.isSome) + 1 := by
  induction b with
  | nil => intro i p hi _; simp at hi
  | cons c rest ih =>
    intro i p hi hc
    cases i with
    | zero =>
      have hcnone : c = none := hc
      subst hcnone
      simp [List.countP_cons]
    | succ j =>
      have hj : j < rest.length := by simpa using hi
      have := ih j p hj hc
      simp only [List.set_cons_succ, List.countP_cons, this]
      omega

lemma countP_set_some_isNone (b : List (Option playerT)) :
    ∀ (i : Nat) (p : playerT), i < b.length → b.getD i none = none →
      (b.set i (some p)).countP (fun c => c.isNone) + 1 =
        b.countP (fun c => c.isNone) := by
  induction b with
  | nil => intro i p hi _; simp at hi
  | cons c rest ih =>
    intro i p hi hc
    cases i with
    | zero =>
      have hcnone : c = none := hc
      subst hcnone
      simp [List.countP_cons]
    | succ j =>
      have hj : j < rest.length := by simpa using hi
      have := ih j p hj hc
      simp only [List.set_cons_succ, List.countP_cons]
      omega

lemma countP_some_none_split (b : List (Option playerT)) :
    b.countP (fun c => c.isSome) + b.countP (fun c => c.isNone) = b.length := by
  induction b with
  | nil => rfl
  | cons c rest ih =>
    cases c <;> simp [List.countP_cons] <;> omega

lemma idx_lt_of_legal {s : stateT} {m : moveT} (hv : ValidState s)
    (hleg : MoveIsLegal m s = true) : (m - 1).toNat < s.board.length := by
  rcases cell_of_legal hleg with ⟨h1, h9, -⟩
  have h1' : @LE.le Int Int.instLEInt 1 m := h1
  have h9' : @LE.le Int Int.instLEInt m 9 := h9
  rw [hv.1]
  suffices h : (@HSub.hSub Int Int Int instHSub m 1).toNat < 9 by exact h
  omega

lemma valid_MakeMove {s : stateT} {m : moveT} (hv : ValidState s)
    (hleg : MoveIsLegal m s = true) : ValidState (MakeMove s m) := by
  rcases cell_of_legal hleg with ⟨-, -, hcell⟩
  have hidx := idx_lt_of_legal hv hleg
  constructor
  · simp [MakeMove, hv.1]
  · have := countP_set_some_isSome s.board (m - 1).toNat s.whoseTurn hidx hcell
    simp only [MakeMove, this, hv.2]
    push_cast
    ring

lemma emptyCells_MakeMove {s : stateT} {m : moveT} (hv : ValidState s)
    (hleg : MoveIsLegal m s = true) :
    emptyCells (MakeMove s m) + 1 = emptyCells s := by
  rcases cell_of_legal hleg with ⟨-, -, hcell⟩
  have hidx := idx_lt_of_legal hv hleg
  simpa [emptyCells, MakeMove] using
    countP_set_some_isNone s.board (m - 1).toNat s.whoseTurn hidx hcell

lemma turns_ne_of_not_over {s : stateT} (hno : GameIsOver s = false) :
    ¬ s.turnsTaken = 9 := by
  simp only [GameIsOver, Bool.or_eq_false_iff, decide_eq_false_iff_not] at hno
  exact hno.2

lemma moves_nonempty {s : stateT} (hv : ValidState s)
    (hno : GameIsOver s = false) : GenerateMoveList s ≠ [] := by
  have ht9 := turns_ne_of_not_over hno
  have hcount : s.board.countP (fun c => c.isSome) ≠ 9 := by
    intro hc
    exact ht9 (by rw [hv.2, hc]; rfl)
  have hle : s.board.countP (fun c => c.isSome) ≤ s.board.length :=
    List.countP_le_length _
  have hlt : s.board.countP (fun c => c.isSome) < s.board.length := by
    rw [hv.1] at hle ⊢; omega
  have hnotall : ¬ ∀ c ∈ s.board, (fun c : Option playerT => c.isSome) c = true := by
    intro hall
    exact absurd (List.countP_eq_length.mpr hall) (by omega)
  push_neg at hnotall
  rcases hnotall with ⟨c, hcmem, hcns⟩
  have hcnone : c = none := by
    cases c
    · rfl
    · simp at hcns
  subst hcnone
  rcases List.mem_iff_get.mp hcmem with ⟨⟨i, hi⟩, hget⟩
  have hi9 : i < 9 := by rw [hv.1] at hi; exact hi
  have hcell : s.board.getD i none = none := by
    rw [getD_eq_get s.board i none hi]
    exact hget
  exact List.ne_nil_of_mem (mem_moves_iff.mpr ⟨i, hi9, rfl, hcell⟩)

lemma full_over {s : stateT} (hv : ValidState s) (he : emptyCells s = 0) :
    GameIsOver s = true := by
  have hsplit := countP_some_none_split s.board
  have hsome : s.board.countP (fun c => c.isSome) = 9 := by
    have := he
    simp only [emptyCells] at this
    rw [this] at hsplit
    rw [hv.1] at hsplit
    omega
  have ht : s.turnsTaken = 9 := by rw [hv.2, hsome]; rfl
  simp [GameIsOver, ht]

lemma static_bounds (s : stateT) :
    LOSING_POSITION ≤ EvaluateStaticPosition s ∧
      EvaluateStaticPosition s ≤ WINNING_POSITION := by
  unfold EvaluateStaticPosition
  split_ifs <;> simp [WINNING_POSITION, LOSING_POSITION, NEUTRAL_POSITION]

lemma evalFuel_bounds : ∀ (fuel : Nat) (s : stateT) (d : Nat), ValidState s →
    LOSING_POSITION ≤ evalFuel fuel s d ∧ evalFuel fuel s d ≤ WINNING_POSITION := by
  intro fuel
  induction fuel with
  | zero => intro s d _; exact static_bounds s
  | succ fuel ih =>
    intro s d hv
    simp only [evalFuel]
    by_cases hOver : (GameIsOver s || decide (MAX_DEPTH ≤ d)) = true
    · rw [if_pos hOver]; exact static_bounds s
    · rw [if_neg hOver]
      have hno : GameIsOver s = false := by
        rcases Bool.or_eq_false_iff.mp (Bool.not_eq_true _ |>.mp hOver) with ⟨h1, -⟩
        exact h1
      have hne := moves_nonempty hv hno
      rw [fbmAux_eq]
      have h1 : ∀ m ∈ GenerateMoveList s,
          LOSING_POSITION ≤ (fun s1 => evalFuel fuel s1 (d+1)) (MakeMove s m) :=
        fun m hm => (ih (MakeMove s m) (d+1)
          (valid_MakeMove hv (legal_of_mem_moves hm))).1
      have h2 : LOSING_POSITION ≤ WINNING_POSITION + 1 := by decide
      rcases loopSimple_spec (fun s1 => evalFuel fuel s1 (d+1)) s
        (GenerateMoveList s) none (WINNING_POSITION + 1) h1 h2 with ⟨hc1, -, -⟩
      rcases List.exists_cons_of_ne_nil hne with ⟨m0, ms', hms⟩
      have hm0 : m0 ∈ GenerateMoveList s := by rw [hms]; exact List.mem_cons_self _ _
      have hv0mem : (fun s1 => evalFuel fuel s1 (d+1)) (MakeMove s m0) ∈
          (GenerateMoveList s).map
            (fun m => (fun s1 => evalFuel fuel s1 (d+1)) (MakeMove s m)) :=
        List.mem_map.mpr ⟨m0, hm0, rfl⟩
      have hlow : LOSING_POSITION ≤
          (loopSimple (fun s1 => evalFuel fuel s1 (d+1)) s (GenerateMoveList s)
            none (WINNING_POSITION + 1)).2 := by
        rw [hc1]
        refine le_foldlMin ?_ h2
        intro v hvmem
        rcases List.mem_map.mp hvmem with ⟨m, hm, rfl⟩
        exact h1 m hm
      have hhigh : (loopSimple (fun s1 => evalFuel fuel s1 (d+1)) s
          (GenerateMoveList s) none (WINNING_POSITION + 1)).2 ≤ WINNING_POSITION := by
        rw [hc1]
        calc ((GenerateMoveList s).map
              (fun m => (fun s1 => evalFuel fuel s1 (d+1)) (MakeMove s m))).foldl
                min (WINNING_POSITION + 1)
            ≤ (fun s1 => evalFuel fuel s1 (d+1)) (MakeMove s m0) :=
              foldlMin_le_mem hv0mem _
          _ ≤ WINNING_POSITION :=
              (ih (MakeMove s m0) (d+1)
                (valid_MakeMove hv (legal_of_mem_moves hm0))).2
      constructor
      · simp only [LOSING_POSITION] at *
        omega
      · simp only [LOSING_POSITION] at *
        omega

lemma evalPos_bounds (s : stateT) (d : Nat) (hv : ValidState s) :
    LOSING_POSITION ≤ EvaluatePosition s d ∧
      EvaluatePosition s d ≤ WINNING_POSITION :=
  evalFuel_bounds (MAX_DEPTH + 1 - d) s d hv

lemma evalPos_eq (s : stateT) (d : Nat) :
    EvaluatePosition s d =
      if (GameIsOver s || decide (MAX_DEPTH ≤ d)) = true
      then EvaluateStaticPosition s else (FindBestMove s d).2 := by
  unfold EvaluatePosition
  rcases Nat.lt_or_ge d (MAX_DEPTH + 1) with hd | hd
  · have hfuel : MAX_DEPTH + 1 - d = (MAX_DEPTH - d) + 1 := by omega
    rw [hfuel]
    simp only [evalFuel]
    have hlam : (fun s1 => EvaluatePosition s1 (d+1)) =
        (fun s1 => evalFuel (MAX_DEPTH - d) s1 (d+1)) := by
      funext s1
      simp [EvaluatePosition, Nat.succ_sub_succ]
    by_cases hc : (GameIsOver s || decide (MAX_DEPTH ≤ d)) = true
    · rw [if_pos hc, if_pos hc]
    · rw [if_neg hc, if_neg hc]
      simp only [FindBestMove, hlam]
  · have hfuel : MAX_DEPTH + 1 - d = 0 := by omega
    have hc : (GameIsOver s || decide (MAX_DEPTH ≤ d)) = true := by
      have : MAX_DEPTH ≤ d := by omega
      simp [this]
    rw [hfuel, if_pos hc]
    rfl

lemma findBestMove_spec (s : stateT) (d : Nat) (hv : ValidState s)
    (hne : GenerateMoveList s ≠ []) :
    ∃ i, ∃ hi : i < (GenerateMoveList s).length,
      (FindBestMove s d).1 = some ((GenerateMoveList s).get ⟨i, hi⟩) ∧
      (FindBestMove s d).2 =
        -(EvaluatePosition (MakeMove s ((GenerateMoveList s).get ⟨i, hi⟩)) (d+1)) ∧
      (∀ m ∈ GenerateMoveList s,
        EvaluatePosition (MakeMove s ((GenerateMoveList s).get ⟨i, hi⟩)) (d+1) ≤
          EvaluatePosition (MakeMove s m) (d+1)) ∧
      (∀ j, ∀ hj : j < (GenerateMoveList s).length, j < i →
        EvaluatePosition (MakeMove s ((GenerateMoveList s).get ⟨i, hi⟩)) (d+1) <
          EvaluatePosition (MakeMove s ((GenerateMoveList s).get ⟨j, hj⟩)) (d+1)) := by
  have h1 : ∀ m ∈ GenerateMoveList s, LOSING_POSITION ≤
      (fun s1 => EvaluatePosition s1 (d+1)) (MakeMove s m) :=
    fun m hm => (evalPos_bounds (MakeMove s m) (d+1)
      (valid_MakeMove hv (legal_of_mem_moves hm))).1
  have h2 : LOSING_POSITION ≤ WINNING_POSITION + 1 := by decide
  rcases loopSimple_spec (fun s1 => EvaluatePosition s1 (d+1)) s
    (GenerateMoveList s) none (WINNING_POSITION + 1) h1 h2 with ⟨hc1, -, hc3⟩
  have hFBM1 : (FindBestMove s d).1 =
      (loopSimple (fun s1 => EvaluatePosition s1 (d+1)) s (GenerateMoveList s)
        none (WINNING_POSITION + 1)).1 := by
    simp [FindBestMove, fbmAux_eq]
  have hFBM2 : (FindBestMove s d).2 =
      -(loopSimple (fun s1 => EvaluatePosition s1 (d+1)) s (GenerateMoveList s)
        none (WINNING_POSITION + 1)).2 := by
    simp [FindBestMove, fbmAux_eq]
  rcases List.exists_cons_of_ne_nil hne with ⟨m0, ms', hms⟩
  have hm0 : m0 ∈ GenerateMoveList s := by rw [hms]; exact List.mem_cons_self _ _
  have hglobal : ∀ m ∈ GenerateMoveList s,
      (loopSimple (fun s1 => EvaluatePosition s1 (d+1)) s (GenerateMoveList s)
        none (WINNING_POSITION + 1)).2 ≤ EvaluatePosition (MakeMove s m) (d+1) := by
    intro m hm
    rw [hc1]
    exact foldlMin_le_mem (List.mem_map.mpr ⟨m, hm, rfl⟩) _
  have hstrict : (loopSimple (fun s1 => EvaluatePosition s1 (d+1)) s
      (GenerateMoveList s) none (WINNING_POSITION + 1)).2 <
        WINNING_POSITION + 1 := by
    have hb := (evalPos_bounds (MakeMove s m0) (d+1)
      (valid_MakeMove hv (legal_of_mem_moves hm0))).2
    have := hglobal m0 hm0
    omega
  rcases hc3 hstrict with ⟨i, hi, hbest, hval, hearlier⟩
  refine ⟨i, hi, ?_, ?_, ?_, ?_⟩
  · rw [hFBM1]; exact hbest
  · rw [hFBM2, hval]
  · intro m hm
    rw [hval]
    exact hglobal m hm
  · intro j hj hjlt
    rw [hval]
    exact hearlier j hj hjlt

lemma evalFuel_stable : ∀ (n fuel1 fuel2 : Nat) (s : stateT) (d : Nat),
    ValidState s → emptyCells s ≤ n → n ≤ fuel1 → n ≤ fuel2 →
    evalFuel fuel1 s d = evalFuel fuel2 s d := by
  intro n
  induction n with
  | zero =>
    intro fuel1 fuel2 s d hv he _ _
    have hover := full_over hv (Nat.le_zero.mp he)
    have hstat : ∀ fuel, evalFuel fuel s d = EvaluateStaticPosition s := by
      intro fuel
      cases fuel with
      | zero => rfl
      | succ f => simp [evalFuel, hover]
    rw [hstat fuel1, hstat fuel2]
  | succ n ih =>
    intro fuel1 fuel2 s d hv he h1 h2
    cases fuel1 with
    | zero => omega
    | succ f1 =>
      cases fuel2 with
      | zero => omega
      | succ f2 =>
        simp only [evalFuel]
        by_cases hc : (GameIsOver s || decide (MAX_DEPTH ≤ d)) = true
        · rw [if_pos hc, if_pos hc]
        · rw [if_neg hc, if_neg hc]
          rw [fbmAux_eq, fbmAux_eq]
          have hcongr := loopSimple_congr
            (fun s1 => evalFuel f1 s1 (d+1)) (fun s1 => evalFuel f2 s1 (d+1)) s
            (GenerateMoveList s)
            (fun m hm => by
              have hleg := legal_of_mem_moves hm
              have hvc := valid_MakeMove hv hleg
              have hec : emptyCells (MakeMove s m) ≤ n := by
                have := emptyCells_MakeMove hv hleg
                omega
              exact ih f1 f2 (MakeMove s m) (d+1) hvc hec (by omega) (by omega))
            none (WINNING_POSITION + 1)
          rw [hcongr]

lemma evalPos_fuel (s : stateT) (d : Nat) (hv : ValidState s)
    (hd : d + emptyCells s ≤ MAX_DEPTH) :
    EvaluatePosition s d = evalFuel (emptyCells s + 1) s d := by
  unfold EvaluatePosition
  exact evalFuel_stable (emptyCells s + 1) _ _ s d hv (Nat.le_succ _)
    (by simp only [MAX_DEPTH] at *; omega) (le_refl _)

lemma testBit_maskOf (p : playerT) : ∀ (b : List (Option playerT)) (i : Nat),
    (maskOf p b).testBit i = decide (b.getD i none = some p) := by
  intro b
  induction b with
  | nil =>
    intro i
    simp [maskOf, Nat.zero_testBit]
  | cons c rest ih =>
    intro i
    cases i with
    | zero =>
      rw [Nat.testBit_zero]
      by_cases hc : c = some p
      · have hmod : ((1 : Nat) + 2 * maskOf p rest) % 2 = 1 := by omega
        simp [maskOf, hc, hmod]
      · have hmod : ((0 : Nat) + 2 * maskOf p rest) % 2 = 0 := by omega
        simp [maskOf, hc, hmod]
    | succ j =>
      rw [Nat.testBit_succ]
      have hdiv : (maskOf p (c :: rest)) / 2 = maskOf p rest := by
        show (((if c = some p then 1 else 0) : Nat) + 2 * maskOf p rest) / 2 =
          maskOf p rest
        split_ifs <;> omega
      rw [hdiv]
      exact ih j

lemma maskOf_set_some_self (b : List (Option playerT)) (i : Nat) (p : playerT)
    (hi : i < b.length) (hc : b.getD i none = none) :
    maskOf p (b.set i (some p)) = maskOf p b ||| 2 ^ i := by
  apply Nat.eq_of_testBit_eq
  intro j
  rw [testBit_maskOf, Nat.testBit_or, testBit_maskOf, Nat.testBit_two_pow]
  by_cases hij : i = j
  · subst hij
    rw [getD_set_self b i (some p) none hi, hc]
    simp
  · rw [getD_set_ne b i j (some p) none hij]
    simp [hij]

lemma maskOf_set_some_other (b : List (Option playerT)) (i : Nat) (p q : playerT)
    (hpq : q ≠ p) (hc : b.getD i none = none) :
    maskOf p (b.set i (some q)) = maskOf p b := by
  apply Nat.eq_of_testBit_eq
  intro j
  rw [testBit_maskOf, testBit_maskOf]
  by_cases hij : i = j
  · subst hij
    by_cases hi : i < b.length
    · rw [getD_set_self b i (some q) none hi, hc]
      simp [hpq]
    · rw [List.set_eq_of_length_le (by omega)]
  · rw [getD_set_ne b i j (some q) none hij]

lemma checkForWin_mask (s : stateT) (p : playerT) :
    CheckForWin s p = bwin (maskOf p s.board) := by
  simp [CheckForWin, bwin, testBit_maskOf]

lemma gameIsOver_bits (s : stateT) (t : Nat) (ht : s.turnsTaken = (t : Int)) :
    GameIsOver s = (bwin (maskOf s.whoseTurn s.board) ||
      bwin (maskOf (Opponent s.whoseTurn) s.board) || (t == 9)) := by
  have h3 : decide (s.turnsTaken = 9) = (t == 9) := by
    by_cases h : t = 9
    · simp [ht, h]
    · have hne : ¬ ((t : Int) = 9) := by omega
      simp [ht, h, hne]
  unfold GameIsOver
  rw [h3]
  cases hw : s.whoseTurn <;>
    simp [checkForWin_mask, hw, Opponent] <;>
    cases bwin (maskOf playerT.Human s.board) <;>
    cases bwin (maskOf playerT.Computer s.board) <;> simp

lemma testBit_orMasks (s : stateT) (i : Nat) :
    (maskOf s.whoseTurn s.board ||| maskOf (Opponent s.whoseTurn) s.board).testBit i =
      !decide (s.board.getD i none = none) := by
  rw [Nat.testBit_or, testBit_maskOf, testBit_maskOf]
  cases hw : s.whoseTurn <;>
    rcases hc : s.board.getD i none with _ | p
  · simp [Opponent]
  · cases p <;> simp [Opponent]
  · simp [Opponent]
  · cases p <;> simp [Opponent]

lemma masks_MakeMove_x {s : stateT} {m : moveT} (hleg : MoveIsLegal m s = true) :
    maskOf (MakeMove s m).whoseTurn (MakeMove s m).board =
      maskOf (Opponent s.whoseTurn) s.board := by
  have hcell := (cell_of_legal hleg).2.2
  simp only [MakeMove]
  exact maskOf_set_some_other s.board (m - 1).toNat (Opponent s.whoseTurn)
    s.whoseTurn (fun h => Opponent_ne s.whoseTurn h.symm) hcell

lemma masks_MakeMove_o {s : stateT} {m : moveT} (hv : ValidState s)
    (hleg : MoveIsLegal m s = true) :
    maskOf (Opponent (MakeMove s m).whoseTurn) (MakeMove s m).board =
      maskOf s.whoseTurn s.board ||| 2 ^ (m - 1).toNat := by
  have hcell := (cell_of_legal hleg).2.2
  have hidx := idx_lt_of_legal hv hleg
  simp only [MakeMove, Opponent_Opponent]
  exact maskOf_set_some_self s.board (m - 1).toNat s.whoseTurn hidx hcell

lemma static_sign (s : stateT) :
    ((bwin (maskOf s.whoseTurn s.board) ||
        !bwin (maskOf (Opponent s.whoseTurn) s.board)) = true →
      0 ≤ EvaluateStaticPosition s) ∧
    ((!bwin (maskOf s.whoseTurn s.board)) = true →
      EvaluateStaticPosition s ≤ 0) := by
  unfold EvaluateStaticPosition
  rw [← checkForWin_mask, ← checkForWin_mask]
  constructor
  · intro h
    cases hA : CheckForWin s s.whoseTurn
    · rw [hA] at h
      simp only [Bool.false_or, Bool.not_eq_true'] at h
      simp [hA, h, NEUTRAL_POSITION]
    · simp [hA, WINNING_POSITION]
  · intro h
    have hA : CheckForWin s s.whoseTurn = false := by
      simpa using h
    cases hB : CheckForWin s (Opponent s.whoseTurn) <;>
      simp [hA, hB, NEUTRAL_POSITION, LOSING_POSITION, WINNING_POSITION]

lemma turns_MakeMove {s : stateT} {m : moveT} {t : Nat}
    (ht : s.turnsTaken = (t : Int)) :
    (MakeMove s m).turnsTaken = ((t + 1 : Nat) : Int) := by
  simp [MakeMove, ht]

lemma bcheck_sound : ∀ (fuel : Nat) (s : stateT) (d : Nat) (t : Nat),
    ValidState s → s.turnsTaken = (t : Int) → d + fuel ≤ MAX_DEPTH →
    (bcheck true fuel (maskOf s.whoseTurn s.board)
        (maskOf (Opponent s.whoseTurn) s.board) t = true →
      0 ≤ evalFuel fuel s d) ∧
    (bcheck false fuel (maskOf s.whoseTurn s.board)
        (maskOf (Opponent s.whoseTurn) s.board) t = true →
      evalFuel fuel s d ≤ 0) := by
  intro fuel
  induction fuel with
  | zero =>
    intro s d t _ _ _
    exact ⟨fun h => (static_sign s).1 h, fun h => (static_sign s).2 h⟩
  | succ fuel ih =>
    intro s d t hv ht hdepth
    have hdlt : decide (MAX_DEPTH ≤ d) = false := by
      simp only [decide_eq_false_iff_not]
      omega
    have hov := gameIsOver_bits s t ht
    by_cases hover : GameIsOver s = true
    · have hcondL : (GameIsOver s || decide (MAX_DEPTH ≤ d)) = true := by
        simp [hover]
      have hcondR : (bwin (maskOf s.whoseTurn s.board) ||
          bwin (maskOf (Opponent s.whoseTurn) s.board) || (t == 9)) = true := by
        rw [← hov]; exact hover
      constructor
      · intro h
        simp only [bcheck, hcondR, if_true] at h
        simp only [evalFuel, hcondL, if_true]
        exact (static_sign s).1 h
      · intro h
        simp only [bcheck, hcondR, if_true] at h
        simp only [evalFuel, hcondL, if_true]
        exact (static_sign s).2 h
    · have hoverF : GameIsOver s = false := Bool.not_eq_true _ |>.mp hover
      have hcondL : (GameIsOver s || decide (MAX_DEPTH ≤ d)) = false := by
        simp [hoverF, hdlt]
      have hcondR : (bwin (maskOf s.whoseTurn s.board) ||
          bwin (maskOf (Opponent s.whoseTurn) s.board) || (t == 9)) = false := by
        rw [← hov]; exact hoverF
      have hEvalEq : evalFuel (fuel+1) s d =
          -(loopSimple (fun s1 => evalFuel fuel s1 (d+1)) s (GenerateMoveList s)
            none (WINNING_POSITION + 1)).2 := by
        simp only [evalFuel, hcondL, Bool.false_eq_true, if_false]
        rw [fbmAux_eq]
      have h1 : ∀ m ∈ GenerateMoveList s, LOSING_POSITION ≤
          (fun s1 => evalFuel fuel s1 (d+1)) (MakeMove s m) :=
        fun m hm => (evalFuel_bounds fuel (MakeMove s m) (d+1)
          (valid_MakeMove hv (legal_of_mem_moves hm))).1
      have h2 : LOSING_POSITION ≤ WINNING_POSITION + 1 := by decide
      rcases loopSimple_spec (fun s1 => evalFuel fuel s1 (d+1)) s
        (GenerateMoveList s) none (WINNING_POSITION + 1) h1 h2 with ⟨hc1, -, -⟩
      have hchild : ∀ (i : Nat), i < 9 → s.board.getD i none = none →
          ((bcheck true fuel (maskOf (Opponent s.whoseTurn) s.board)
              (maskOf s.whoseTurn s.board ||| 2 ^ i) (t + 1) = true →
            0 ≤ evalFuel fuel (MakeMove s ((i : Int) + 1)) (d+1)) ∧
          (bcheck false fuel (maskOf (Opponent s.whoseTurn) s.board)
              (maskOf s.whoseTurn s.board ||| 2 ^ i) (t + 1) = true →
            evalFuel fuel (MakeMove s ((i : Int) + 1)) (d+1) ≤ 0)) := by
        intro i hi9 hcell
        have hmem : ((i : Int) + 1) ∈ GenerateMoveList s :=
          mem_moves_iff.mpr ⟨i, hi9, rfl, hcell⟩
        have hleg := legal_of_mem_moves hmem
        have hvc := valid_MakeMove hv hleg
        have htc := turns_MakeMove (m := (i : Int) + 1) ht
        have hidx : (((i : Int) + 1) - 1).toNat = i := by omega
        have hx := masks_MakeMove_x (s := s) (m := (i : Int) + 1) hleg
        have ho := masks_MakeMove_o (s := s) (m := (i : Int) + 1) hv hleg
        rw [hidx] at ho
        have := ih (MakeMove s ((i : Int) + 1)) (d+1) (t+1) hvc htc (by omega)
        rw [hx, ho] at this
        exact this
      constructor
      · intro h
        simp only [bcheck, hcondR, Bool.false_eq_true, if_false, if_true] at h
        rcases List.any_eq_true.mp h with ⟨i, hifil, hbc⟩
        rcases List.mem_filter.mp hifil with ⟨hilit, hbit⟩
        have hi9 : i < 9 := by
          have hall : ∀ j ∈ [4,0,2,6,8,1,3,5,7], j < 9 := by decide
          exact hall i hilit
        have hcell : s.board.getD i none = none := by
          have := testBit_orMasks s i
          rw [this] at hbit
          simpa using hbit
        have hle0 : evalFuel fuel (MakeMove s ((i : Int) + 1)) (d+1) ≤ 0 :=
          (hchild i hi9 hcell).2 hbc
        have hmem : ((i : Int) + 1) ∈ GenerateMoveList s :=
          mem_moves_iff.mpr ⟨i, hi9, rfl, hcell⟩
        have hminle : (loopSimple (fun s1 => evalFuel fuel s1 (d+1)) s
            (GenerateMoveList s) none (WINNING_POSITION + 1)).2 ≤
              evalFuel fuel (MakeMove s ((i : Int) + 1)) (d+1) := by
          rw [hc1]
          exact foldlMin_le_mem (List.mem_map.mpr ⟨(i : Int) + 1, hmem, rfl⟩) _
        rw [hEvalEq]
        omega
      · intro h
        simp only [bcheck, hcondR, Bool.false_eq_true, if_false] at h
        have hall := List.all_eq_true.mp h
        have hvals : ∀ v ∈ (GenerateMoveList s).map
            (fun m => (fun s1 => evalFuel fuel s1 (d+1)) (MakeMove s m)), 0 ≤ v := by
          intro v hvmem
          rcases List.mem_map.mp hvmem with ⟨m, hm, rfl⟩
          rcases mem_moves_iff.mp hm with ⟨i, hi9, rfl, hcell⟩
          have hbit : (!(maskOf s.whoseTurn s.board |||
              maskOf (Opponent s.whoseTurn) s.board).testBit i) = true := by
            rw [testBit_orMasks s i]
            simp only [Bool.not_not, decide_eq_true_eq]
            exact hcell
          have hifil : i ∈ (List.range 9).filter
              (fun i => !(maskOf s.whoseTurn s.board |||
                maskOf (Opponent s.whoseTurn) s.board).testBit i) :=
            List.mem_filter.mpr ⟨List.mem_range.mpr hi9, hbit⟩
          exact (hchild i hi9 hcell).1 (hall i hifil)
        have hge0 : 0 ≤ (loopSimple (fun s1 => evalFuel fuel s1 (d+1)) s
            (GenerateMoveList s) none (WINNING_POSITION + 1)).2 := by
          rw [hc1]
          exact le_foldlMin hvals (by decide)
        rw [hEvalEq]
        omega

/-- Claim C1: on a valid position with at least one legal move that is
not terminal, and any depth, `FindBestMove` returns a legal move (an
element of the generated move list) achieving the maximum achievable
rating `-(EvaluatePosition (MakeMove s m) (d+1))` for the side to move,
sets the rating output to that maximum, and among equally rated moves
returns the first in enumeration order. -/
theorem findBestMove_first_max (s : stateT) (d : Nat) (hv : ValidState s)
    (hno : GameIsOver s = false) (hne : GenerateMoveList s ≠ []) :
    ∃ i, ∃ hi : i < (GenerateMoveList s).length,
      (FindBestMove s d).1 = some ((GenerateMoveList s).get ⟨i, hi⟩) ∧
      (FindBestMove s d).2 =
        -(EvaluatePosition (MakeMove s ((GenerateMoveList s).get ⟨i, hi⟩)) (d+1)) ∧
      (∀ m ∈ GenerateMoveList s,
        -(EvaluatePosition (MakeMove s m) (d+1)) ≤ (FindBestMove s d).2) ∧
      (∀ j, ∀ hj : j < (GenerateMoveList s).length, j < i →
        -(EvaluatePosition (MakeMove s ((GenerateMoveList s).get ⟨j, hj⟩)) (d+1)) <
          (FindBestMove s d).2) := by
  rcases findBestMove_spec s d hv hne with ⟨i, hi, hbest, hrat, hglob, hfirst⟩
  refine ⟨i, hi, hbest, hrat, ?_, ?_⟩
  · intro m hm
    rw [hrat]
    exact neg_le_neg (hglob m hm)
  · intro j hj hjlt
    rw [hrat]
    exact neg_lt_neg (hfirst j hj hjlt)

/-- Witness for C1 at the concrete position `sampleState` and depth 0. -/
theorem findBestMove_first_max_witness :
    ValidState sampleState ∧ GameIsOver sampleState = false ∧
      GenerateMoveList sampleState ≠ [] ∧
      (∃ i, ∃ hi : i < (GenerateMoveList sampleState).length,
        (FindBestMove sampleState 0).1 =
          some ((GenerateMoveList sampleState).get ⟨i, hi⟩) ∧
        (FindBestMove sampleState 0).2 =
          -(EvaluatePosition
            (MakeMove sampleState ((GenerateMoveList sampleState).get ⟨i, hi⟩)) 1) ∧
        (∀ m ∈ GenerateMoveList sampleState,
          -(EvaluatePosition (MakeMove sampleState m) 1) ≤
            (FindBestMove sampleState 0).2) ∧
        (∀ j, ∀ hj : j < (GenerateMoveList sampleState).length, j < i →
          -(EvaluatePosition
            (MakeMove sampleState ((GenerateMoveList sampleState).get ⟨j, hj⟩)) 1) <
            (FindBestMove sampleState 0).2)) :=
  ⟨by decide, by decide, by decide,
    findBestMove_first_max sampleState 0 (by decide) (by decide) (by decide)⟩

/-- Claim C2: on every valid non-terminal position with depth below
`MAX_DEPTH`, the rating of `EvaluatePosition` satisfies the negamax
equation: the minimum over legal moves of the child evaluations equals
the negation of the position's evaluation. -/
theorem evalPosition_negamax (s : stateT) (d : Nat) (hv : ValidState s)
    (hno : GameIsOver s = false) (hd : d < MAX_DEPTH) :
    ((GenerateMoveList s).map
      (fun m => EvaluatePosition (MakeMove s m) (d+1))).min? =
        some (-(EvaluatePosition s d)) := by
  have hne := moves_nonempty hv hno
  have h1 : ∀ m ∈ GenerateMoveList s, LOSING_POSITION ≤
      (fun s1 => EvaluatePosition s1 (d+1)) (MakeMove s m) :=
    fun m hm => (evalPos_bounds (MakeMove s m) (d+1)
      (valid_MakeMove hv (legal_of_mem_moves hm))).1
  have h2 : LOSING_POSITION ≤ WINNING_POSITION + 1 := by decide
  rcases loopSimple_spec (fun s1 => EvaluatePosition s1 (d+1)) s
    (GenerateMoveList s) none (WINNING_POSITION + 1) h1 h2 with ⟨hc1, -, -⟩
  have hcond : (GameIsOver s || decide (MAX_DEPTH ≤ d)) = false := by
    simp [hno]
    omega
  have hEP : EvaluatePosition s d = (FindBestMove s d).2 := by
    rw [evalPos_eq]
    simp [hcond]
  have hFBM2 : (FindBestMove s d).2 =
      -(loopSimple (fun s1 => EvaluatePosition s1 (d+1)) s (GenerateMoveList s)
        none (WINNING_POSITION + 1)).2 := by
    simp [FindBestMove, fbmAux_eq]
  rcases List.exists_cons_of_ne_nil hne with ⟨m0, rest, hms⟩
  have hm0 : m0 ∈ GenerateMoveList s := by rw [hms]; exact List.mem_cons_self _ _
  have hm0le : EvaluatePosition (MakeMove s m0) (d+1) ≤ WINNING_POSITION :=
    (evalPos_bounds (MakeMove s m0) (d+1)
      (valid_MakeMove hv (legal_of_mem_moves hm0))).2
  have hmin0 : min (WINNING_POSITION + 1) (EvaluatePosition (MakeMove s m0) (d+1)) =
      EvaluatePosition (MakeMove s m0) (d+1) :=
    min_eq_right (by omega)
  rw [hms]
  show (EvaluatePosition (MakeMove s m0) (d+1) ::
    rest.map (fun m => EvaluatePosition (MakeMove s m) (d+1))).min? = _
  rw [show (EvaluatePosition (MakeMove s m0) (d+1) ::
      rest.map (fun m => EvaluatePosition (MakeMove s m) (d+1))).min? =
      some ((rest.map (fun m => EvaluatePosition (MakeMove s m) (d+1))).foldl min
        (EvaluatePosition (MakeMove s m0) (d+1))) from rfl]
  congr 1
  rw [hEP, hFBM2, neg_neg, hc1, hms]
  show _ = (EvaluatePosition (MakeMove s m0) (d+1) ::
    rest.map (fun m => EvaluatePosition (MakeMove s m) (d+1))).foldl min
      (WINNING_POSITION + 1)
  rw [List.foldl_cons, hmin0]

/-- Witness for C2 at the concrete position `sampleState` and depth 0. -/
theorem evalPosition_negamax_witness :
    ValidState sampleState ∧ GameIsOver sampleState = false ∧ 0 < MAX_DEPTH ∧
      ((GenerateMoveList sampleState).map
        (fun m => EvaluatePosition (MakeMove sampleState m) 1)).min? =
          some (-(EvaluatePosition sampleState 0)) :=
  ⟨by decide, by decide, by decide,
    evalPosition_negamax sampleState 0 (by decide) (by decide) (by decide)⟩

/-- Claim C3: for every position and depth, `EvaluatePosition` returns
the static evaluation exactly when the position is terminal or the depth
has reached `MAX_DEPTH`, and otherwise returns the rating component of
`FindBestMove`, discarding the move. -/
theorem evalPosition_static_or_search (s : stateT) (d : Nat) :
    EvaluatePosition s d =
      if GameIsOver s = true ∨ MAX_DEPTH ≤ d then EvaluateStaticPosition s
      else (FindBestMove s d).2 := by
  rw [evalPos_eq]
  by_cases h : GameIsOver s = true ∨ MAX_DEPTH ≤ d
  · have hb : (GameIsOver s || decide (MAX_DEPTH ≤ d)) = true := by
      rcases h with h | h <;> simp [h]
    rw [if_pos hb, if_pos h]
  · have hb : (GameIsOver s || decide (MAX_DEPTH ≤ d)) = false := by
      push_neg at h
      simp [h.1, h.2]
    rw [if_neg (by simp [hb]), if_neg h]

/-- Claim C4: on every valid position the search rating is bounded by
the landmark constants: `LOSING_POSITION ≤ EvaluatePosition s 0 ≤
WINNING_POSITION`, with `WINNING_POSITION = 1000`, `NEUTRAL_POSITION = 0`
and `LOSING_POSITION = -WINNING_POSITION`. -/
theorem evalPosition_bounded (s : stateT) (hv : ValidState s) :
    LOSING_POSITION ≤ EvaluatePosition s 0 ∧
      EvaluatePosition s 0 ≤ WINNING_POSITION ∧
      WINNING_POSITION = 1000 ∧ NEUTRAL_POSITION = 0 ∧
      LOSING_POSITION = -WINNING_POSITION :=
  ⟨(evalPos_bounds s 0 hv).1, (evalPos_bounds s 0 hv).2, rfl, rfl, rfl⟩

/-- Witness for C4 at the concrete position `NewGame`. -/
theorem evalPosition_bounded_witness :
    ValidState NewGame ∧
      (LOSING_POSITION ≤ EvaluatePosition NewGame 0 ∧
        EvaluatePosition NewGame 0 ≤ WINNING_POSITION ∧
        WINNING_POSITION = 1000 ∧ NEUTRAL_POSITION = 0 ∧
        LOSING_POSITION = -WINNING_POSITION) :=
  ⟨by decide, evalPosition_bounded NewGame (by decide)⟩

/-- Claim C5: on a valid position with at least one legal move, the
early exit of `FindBestMove` at `LOSING_POSITION` is sound: the move and
rating it returns equal those of the exhaustive search over the full
move list. -/
theorem findBestMove_early_exit_sound (s : stateT) (d : Nat)
    (hv : ValidState s) (hne : GenerateMoveList s ≠ []) :
    FindBestMove s d = FindBestMoveExhaustive s d := by
  have h1 : ∀ m ∈ GenerateMoveList s, LOSING_POSITION ≤
      (fun s1 => EvaluatePosition s1 (d+1)) (MakeMove s m) :=
    fun m hm => (evalPos_bounds (MakeMove s m) (d+1)
      (valid_MakeMove hv (legal_of_mem_moves hm))).1
  have h2 : LOSING_POSITION ≤ WINNING_POSITION + 1 := by decide
  have heq := loopSimple_eq_exhaustive (fun s1 => EvaluatePosition s1 (d+1)) s
    (GenerateMoveList s) none (WINNING_POSITION + 1) h1 h2
  simp only [FindBestMove, FindBestMoveExhaustive, fbmAux_eq, heq]

/-- Witness for C5 at the concrete position `sampleState` and depth 0. -/
theorem findBestMove_early_exit_sound_witness :
    ValidState sampleState ∧ GenerateMoveList sampleState ≠ [] ∧
      FindBestMove sampleState 0 = FindBestMoveExhaustive sampleState 0 :=
  ⟨by decide, by decide,
    findBestMove_early_exit_sound sampleState 0 (by decide) (by decide)⟩

set_option maxRecDepth 2000000 in
set_option maxHeartbeats 16000000 in
/-- Claim C6: on the empty board with the computer to move, the search
returns `NEUTRAL_POSITION`: tic-tac-toe is a forced draw under optimal
play by both sides.  The full game tree is settled by the two runs of
the bitmask checker `bcheck`, which `bcheck_sound` ties to `evalFuel`. -/
theorem empty_board_draw : EvaluatePosition NewGame 0 = NEUTRAL_POSITION := by
  have hv : ValidState NewGame := by decide
  have he : emptyCells NewGame = 9 := by decide
  have h0 : EvaluatePosition NewGame 0 = evalFuel 10 NewGame 0 := by
    have h := evalPos_fuel NewGame 0 hv (by rw [he]; decide)
    rw [he] at h
    exact h
  have hm1 : maskOf NewGame.whoseTurn NewGame.board = 0 := by decide
  have hm2 : maskOf (Opponent NewGame.whoseTurn) NewGame.board = 0 := by decide
  have ht : NewGame.turnsTaken = ((0 : Nat) : Int) := by decide
  have hsound := bcheck_sound 10 NewGame 0 0 hv ht (by decide)
  rw [hm1, hm2] at hsound
  have hge : 0 ≤ evalFuel 10 NewGame 0 := hsound.1 (by decide)
  have hle : evalFuel 10 NewGame 0 ≤ 0 := hsound.2 (by decide)
  rw [h0]
  have hzero : evalFuel 10 NewGame 0 = 0 := le_antisymm hle hge
  rw [hzero]
  rfl

/-- Claim C7: called on a position with no legal moves, `FindBestMove`
does not abort: the best move is never assigned (modelled as `none`) and
the rating output is `-(WINNING_POSITION + 1) = -1001`, strictly below
`LOSING_POSITION`.  (The diagnostic print of the source is I/O and is
not part of the model.) -/
theorem findBestMove_no_moves (s : stateT) (d : Nat)
    (h : GenerateMoveList s = []) :
    FindBestMove s d = (none, -(WINNING_POSITION + 1)) ∧
      -(WINNING_POSITION + 1) < LOSING_POSITION := by
  constructor
  · simp [FindBestMove, fbmAux, h]
  · decide

/-- Witness for C7 at the concrete full board `fullState`. -/
theorem findBestMove_no_moves_witness :
    GenerateMoveList fullState = [] ∧
      (FindBestMove fullState 0 = (none, -(WINNING_POSITION + 1)) ∧
        -(WINNING_POSITION + 1) < LOSING_POSITION) :=
  ⟨by decide, findBestMove_no_moves fullState 0 (by decide)⟩

/-- Claim C8: the search never mutates the position observably: the
position threaded through the apply/retract discipline of the move loop
of `FindBestMove` (with children evaluated by `EvaluatePosition`) comes
back equal to the input position in every field. -/
theorem search_preserves_position (s : stateT) (d : Nat) :
    (fbmAux (fun s1 => EvaluatePosition s1 (d+1)) s).1 = s := by
  rw [fbmAux_eq]

/-- Claim C9: the mutual recursion terminates with recursion depth
bounded by the number of empty squares plus one: on a valid position
whose empty-cell count keeps the depth cap out of reach, the search
computes the same value with fuel `emptyCells s + 1` as with the
`MAX_DEPTH`-sized fuel budget, so the `MAX_DEPTH` cap is never the
binding limit for tic-tac-toe. -/
theorem recursion_depth_bounded (s : stateT) (d : Nat) (hv : ValidState s)
    (hd : d + emptyCells s ≤ MAX_DEPTH) :
    EvaluatePosition s d = evalFuel (emptyCells s + 1) s d :=
  evalPos_fuel s d hv hd

/-- Witness for C9 at the concrete position `NewGame` and depth 0. -/
theorem recursion_depth_bounded_witness :
    ValidState NewGame ∧ 0 + emptyCells NewGame ≤ MAX_DEPTH ∧
      EvaluatePosition NewGame 0 = evalFuel (emptyCells NewGame + 1) NewGame 0 :=
  ⟨by decide, by decide, recursion_depth_bounded NewGame 0 (by decide) (by decide)⟩

/-- Claim C10: whenever the generated move list is non-empty on a valid
position, `bestMove` is assigned before `FindBestMove` returns: the
returned move is `some` move of the generated list, never the
uninitialised value. -/
theorem bestMove_assigned (s : stateT) (d : Nat) (hv : ValidState s)
    (hne : GenerateMoveList s ≠ []) :
    ∃ m, (FindBestMove s d).1 = some m ∧ m ∈ GenerateMoveList s := by
  rcases findBestMove_spec s d hv hne with ⟨i, hi, hbest, -, -, -⟩
  exact ⟨(GenerateMoveList s).get ⟨i, hi⟩, hbest, List.get_mem _ _ _⟩

/-- Witness for C10 at the concrete position `sampleState` and depth 0. -/
theorem bestMove_assigned_witness :
    ValidState sampleState ∧ GenerateMoveList sampleState ≠ [] ∧
      (∃ m, (FindBestMove sampleState 0).1 = some m ∧
        m ∈ GenerateMoveList sampleState) :=
  ⟨by decide, by decide, bestMove_assigned sampleState 0 (by decide) (by decide)⟩

end TicTacToe
